import Mathlib

/-!
Shallow embedding of the core of the `app-store-web-scraper` library
(`src/app_store_web_scraper/_entry.py`, `_session.py`, `_errors.py`) together
with the fake App Store backend of its test suite (`tests/test_all.py`).

Modelling conventions:
* Python strings are modelled as lists of characters (`Str`).
* Python `float` configuration values (delays, backoff factors) are modelled
  exactly as rationals.
* Timestamps are modelled opaquely by their ISO-8601 text; `datetime.isoformat`
  and `datetime.fromisoformat` (external stdlib, consumed as black boxes) cancel
  on the canonical forms exchanged here, so the date field passes through both
  the serialiser and `_parse_app_review` unchanged.
* HTTP transports are environment parameters: a page fetch is a function from the
  request URL to a response, and the reviews API is a function from the request
  URL to a parsed JSON page.  The generator of `AppStoreEntry.reviews` is run to
  completion with a fuel bound; `none` means the fuel ran out before the loop did.
-/

/-- Python strings, modelled as lists of characters. -/
abbrev Str := List Char

/-- Character list of a Lean string literal. -/
def chars (s : String) : Str := s.data

/-- Exception taxonomy of the library (`_errors.py`) plus the Python built-in
exceptions its code can raise.  In `_errors.py`, `AppNotFound` is a subclass of
`AppStoreError`; `keyError`, `typeError` and `valueError` model the Python
built-ins `KeyError`, `TypeError` and `ValueError`, which are not
`AppStoreError`s. -/
inductive ScraperError where
  | appStoreError (msg : Str)
  | appNotFound (app_id : Str) (country : Str)
  | keyError (key : Str)
  | typeError
  | valueError
deriving DecidableEq

/-- Whether a raised exception is (an instance of) `AppStoreError`.
`AppNotFound` subclasses `AppStoreError`, so it counts; the Python built-ins do
not. -/
def ScraperError.isAppStoreError : ScraperError → Bool
  | .appStoreError _ => true
  | .appNotFound _ _ => true
  | _ => false

/-- Parsed JSON values (the output of `json.loads`, consumed as a black box). -/
inductive Json where
  | null
  | bool (b : Bool)
  | num (n : Int)
  | str (s : Str)
  | arr (items : List Json)
  | obj (fields : List (Str × Json))

/-- Python subscription `j[key]` on a parsed JSON value: `KeyError` when the key
is absent from an object, `TypeError` when the value is not an object. -/
def Json.getItem : Json → Str → Except ScraperError Json
  | .obj fields, k =>
    match fields.lookup k with
    | some v => .ok v
    | none => .error (.keyError k)
  | _, _ => .error .typeError

/-- Abstraction of a fetched app-page HTML document.  `configTag` holds the
URL-decoded, JSON-parsed content of the
`<meta name="web-experience-app/config/environment" content="...">` tag when the
regular expression `_APP_STORE_CONFIG_TAG_PATTERN` of `_entry.py` matches, and
`none` when no such tag is present.  The regex search, `urllib.parse.unquote`
and `json.loads` pipeline is external parsing machinery consumed as a black box;
its result is what the scraper logic inspects. -/
structure AppPageHtml where
  configTag : Option Json

/-- Embedding of `AppStoreEntry._extract_api_access_token`: if the config tag
matches, evaluate `config["MEDIA_API"]["token"]` (raising `KeyError` /
`TypeError` as Python subscription does); otherwise raise
`AppStoreError("No API token found on app store page")`. -/
def _extract_api_access_token (page_html : AppPageHtml) : Except ScraperError Json :=
  match page_html.configTag with
  | some config =>
    match config.getItem (chars ("MEDIA_API")) with
    | .ok media => media.getItem (chars ("token"))
    | .error e => .error e
  | none => .error (.appStoreError (chars ("No API token found on app store page")))

/-- Retry policy handed to `urllib3.PoolManager` in `AppStoreSession.__init__`
(`urllib3.Retry(total=retries, backoff_factor=..., backoff_jitter=...,
backoff_max=..., status_forcelist={429, 503})`). -/
structure RetryPolicy where
  total : Nat
  backoff_factor : ℚ
  backoff_jitter : ℚ
  backoff_max : ℚ
  status_forcelist : List Nat
deriving DecidableEq

/-- State of an `AppStoreSession` (`_session.py`): the inter-request delay
configuration, the retry policy of the connection pool, and the
`_made_first_request` flag. -/
structure AppStoreSession where
  delay : ℚ
  delay_jitter : ℚ
  retry : RetryPolicy
  made_first_request : Bool
deriving DecidableEq

/-- Embedding of `AppStoreSession.__init__` with every parameter passed
explicitly. -/
def AppStoreSession.mkSession (delay delay_jitter : ℚ) (retries : Nat)
    (retries_backoff_factor retries_backoff_jitter retries_backoff_max : ℚ) :
    AppStoreSession :=
  { delay := delay
    delay_jitter := delay_jitter
    retry :=
      { total := retries
        backoff_factor := retries_backoff_factor
        backoff_jitter := retries_backoff_jitter
        backoff_max := retries_backoff_max
        status_forcelist := [429, 503] }
    made_first_request := false }

/-- Result of `AppStoreSession()` with the declared default arguments of
`__init__`: `delay=0.2`, `delay_jitter=0.05`, `retries=4`,
`retries_backoff_factor=2`, `retries_backoff_jitter=0`,
`retries_backoff_max=60`. -/
def AppStoreSession.defaultSession : AppStoreSession :=
  AppStoreSession.mkSession (1/5) (1/20) 4 2 0 60

/-- Embedding of `AppStoreSession._apply_delay`: the duration the session sleeps
before issuing the next request, or `none` when no sleep happens.  The `jitter`
argument models the value drawn by `random.uniform(0, self._delay_jitter)`. -/
def AppStoreSession._apply_delay (s : AppStoreSession) (jitter : ℚ) : Option ℚ :=
  if 0 < s.delay ∧ s.made_first_request then some (s.delay + jitter) else none

/-- The assignment `self._made_first_request = True` executed by both request
methods of the session. -/
def AppStoreSession.markRequestMade (s : AppStoreSession) : AppStoreSession :=
  { s with made_first_request := true }

/-- Decimal value of a character, as `int()` sees it. -/
def digitVal (c : Char) : Option Nat :=
  if '0' ≤ c ∧ c ≤ '9' then some (c.toNat - 48) else none

/-- Accumulating decimal parse; fails on any non-digit character. -/
def parseNatFold : List Char → Nat → Option Nat
  | [], acc => some acc
  | c :: cs, acc =>
    match digitVal c with
    | some d => parseNatFold cs (acc * 10 + d)
    | none => none

/-- Python `int(s)` on a non-negative decimal string (`none` models
`ValueError`). -/
def parseNat (s : Str) : Option Nat :=
  match s with
  | [] => none
  | _ :: _ => parseNatFold s 0

/-- Python `int(s)`, allowing one leading minus sign. -/
def parseInt (s : Str) : Option Int :=
  match s with
  | '-' :: rest => (parseNat rest).map (fun n => -(n : Int))
  | _ => (parseNat s).map (fun n => (n : Int))

/-- Python `str(n)` for a natural number: exactly the character list produced by
Lean's own decimal printer. -/
def natStr (n : Nat) : Str := Nat.toDigits 10 n

/-- Python `str(i)` for an integer. -/
def intStr (i : Int) : Str :=
  if i < 0 then '-' :: natStr i.natAbs else natStr i.toNat

/-- The constructed `AppStoreEntry`: normalized `app_id` and `country` fields
plus the API access token cached at construction time. -/
structure AppStoreEntry where
  app_id : Int
  country : Str
  api_access_token : Json

/-- Class attribute `AppStoreSession._web_base_url`. -/
def webBaseUrl : Str := chars ("https://apps.apple.com")

/-- URL of the construction-time page fetch,
`urljoin(self._web_base_url, f"/{country}/app/_/id{app_id}")`, built inside
`AppStoreSession._get_app_page` from the arguments it receives. -/
def appPageUrl (app_id : Str) (country : Str) : Str :=
  webBaseUrl ++ '/' :: country ++ chars ("/app/_/id") ++ app_id

/-- Decoded HTTP response to an app-page fetch. -/
structure PageResponse where
  status : Nat
  body : AppPageHtml

/-- Observable outcome of running `AppStoreEntry.__init__`: the constructed
entry or the raised exception, together with the page-fetch URLs and the
reviews-API request URLs issued during construction. -/
structure InitResult where
  result : Except ScraperError AppStoreEntry
  pageCalls : List Str
  apiCalls : List Str

/-- Embedding of `AppStoreEntry.__init__` (together with the status handling of
`AppStoreSession._get_app_page`).  The `web` argument is the environment: it
maps the fetched URL to the HTTP response.  Following the Python statement
order: `int(app_id)` runs first (raising `ValueError` before any fetch), the
page is fetched with the raw constructor arguments, a 404 raises `AppNotFound`,
any other status of at least 400 raises `AppStoreError`, and otherwise the
access token is extracted from the page body. -/
def AppStoreEntry.init (web : Str → PageResponse) (app_id : Str) (country : Str) :
    InitResult :=
  match parseInt app_id with
  | none => { result := .error .valueError, pageCalls := [], apiCalls := [] }
  | some n =>
    let url := appPageUrl app_id country
    let resp := web url
    if resp.status = 404 then
      { result := .error (.appNotFound app_id country), pageCalls := [url], apiCalls := [] }
    else if 400 ≤ resp.status then
      { result := .error (.appStoreError (chars ("Fetching App Store page failed")))
        pageCalls := [url], apiCalls := [] }
    else
      match _extract_api_access_token resp.body with
      | .error e => { result := .error e, pageCalls := [url], apiCalls := [] }
      | .ok tok =>
        { result := .ok
            { app_id := n, country := country.map Char.toLower, api_access_token := tok }
          pageCalls := [url], apiCalls := [] }

/-- The raised exception of a construction attempt, if any. -/
def InitResult.raised (r : InitResult) : Option ScraperError :=
  match r.result with
  | .error e => some e
  | .ok _ => none

/-- Timestamps modelled by their ISO-8601 text (see the module docstring). -/
abbrev Timestamp := Str

/-- Data class `AppDeveloperResponse` of `_entry.py`. -/
structure AppDeveloperResponse where
  id : Int
  body : Str
  modified : Timestamp
deriving DecidableEq

/-- Data class `AppReview` of `_entry.py`. -/
structure AppReview where
  id : Int
  date : Timestamp
  user_name : Str
  title : Str
  review : Str
  rating : Int
  is_edited : Bool
  developer_response : Option AppDeveloperResponse
deriving DecidableEq

/-- Typed view of the `developerResponse` object inside a review item of the
API JSON. -/
structure DeveloperResponseItem where
  id : Int
  body : Str
  modified : Timestamp
deriving DecidableEq

/-- Typed view of the `attributes` object of a review item of the API JSON. -/
structure ReviewItemAttributes where
  date : Timestamp
  userName : Str
  title : Str
  review : Str
  rating : Int
  isEdited : Bool
  developerResponse : Option DeveloperResponseItem
deriving DecidableEq

/-- Typed view of one element of the `data` array of a reviews-API page. -/
structure ReviewItem where
  id : Int
  attributes : ReviewItemAttributes
deriving DecidableEq

/-- Embedding of `AppStoreEntry._parse_app_review`.  The timestamp fields pass
through `fromisoformat_utc`, which is the identity on the canonical ISO text
model of timestamps. -/
def _parse_app_review (item : ReviewItem) : AppReview :=
  { id := item.id
    date := item.attributes.date
    user_name := item.attributes.userName
    title := item.attributes.title
    review := item.attributes.review
    rating := item.attributes.rating
    is_edited := item.attributes.isEdited
    developer_response := item.attributes.developerResponse.map
      (fun d => { id := d.id, body := d.body, modified := d.modified }) }

/-- Parsed JSON body of a reviews-API page: the `data` array and the optional
incomplete continuation URL `next`. -/
structure ReviewsResponse where
  data : List ReviewItem
  next : Option Str

/-- The value `_REVIEWS_PAGE_SIZE` of `_entry.py`. -/
def _REVIEWS_PAGE_SIZE : Nat := 20

/-- The `params` dictionary built in `AppStoreEntry.reviews`: the fixed
`platform`, `additionalPlatforms` and `sort` entries, and a `limit` entry of
`str(min(limit, _REVIEWS_PAGE_SIZE)) if limit > 0 else str(_REVIEWS_PAGE_SIZE)`. -/
def reviewsParams (limit : Int) : List (Str × Str) :=
  [(chars ("platform"), chars ("web")),
   (chars ("additionalPlatforms"), chars ("appletv,ipad,iphone,mac")),
   (chars ("sort"), chars ("-date")),
   (chars ("limit"),
     if 0 < limit then intStr (min limit (_REVIEWS_PAGE_SIZE : Int))
     else intStr (_REVIEWS_PAGE_SIZE : Int))]

/-- Uppercase hexadecimal digit, as `urllib.parse.quote_plus` prints escapes. -/
def hexDigit : Nat → Char
  | 0 => '0' | 1 => '1' | 2 => '2' | 3 => '3' | 4 => '4' | 5 => '5' | 6 => '6' | 7 => '7'
  | 8 => '8' | 9 => '9' | 10 => 'A' | 11 => 'B' | 12 => 'C' | 13 => 'D' | 14 => 'E' | _ => 'F'

/-- Encoding of one character under `urllib.parse.quote_plus` (the `quote_via`
of `urllib.parse.urlencode`): unreserved ASCII characters pass through, a space
becomes `+`, everything else is percent-escaped.  The inputs of this program
are ASCII, so the multi-byte UTF-8 case does not arise. -/
def quotePlusChar (c : Char) : Str :=
  if c.isAlphanum ∨ c = '_' ∨ c = '.' ∨ c = '-' ∨ c = '~' then [c]
  else if c = ' ' then ['+']
  else ['%', hexDigit (c.toNat / 16 % 16), hexDigit (c.toNat % 16)]

/-- Embedding of `urllib.parse.quote_plus` on a whole string. -/
def quote_plus : Str → Str
  | [] => []
  | c :: cs => quotePlusChar c ++ quote_plus cs

/-- Embedding of `urllib.parse.urlencode`: percent-encode every key and value
and join them as `k=v` pairs separated by `&`. -/
def urlencode : List (Str × Str) → Str
  | [] => []
  | [p] => quote_plus p.1 ++ '=' :: quote_plus p.2
  | p :: ps => quote_plus p.1 ++ '=' :: quote_plus p.2 ++ '&' :: urlencode ps

/-- One request issued through `AppStoreSession._get_api_resource`: the URL
(relative to the API base) and the bearer token attached to it. -/
structure ApiCall where
  url : Str
  access_token : Json

/-- Observable outcome of consuming the `reviews` generator to its end: the
reviews yielded, the API requests made (in order), whether the generator
returned early because the `limit` was reached, and the exception it raised
mid-iteration, if any (reviews yielded before the failure are kept). -/
structure LoopResult where
  yielded : List AppReview
  calls : List ApiCall
  stoppedByLimit : Bool
  raised : Option ScraperError

/-- The `for item in reviews["data"]` body of `AppStoreEntry.reviews`: parse and
yield each item, increment `review_count`, and return early when a positive
`limit` is reached exactly.  Returns the yielded reviews, the new
`review_count`, and whether the early `return` fired. -/
def processItems (limit : Int) : Nat → List ReviewItem → List AppReview × Nat × Bool
  | review_count, [] => ([], review_count, false)
  | review_count, item :: rest =>
    let r := _parse_app_review item
    let c := review_count + 1
    if 0 < limit ∧ (c : Int) = limit then ([r], c, true)
    else
      let res := processItems limit c rest
      (r :: res.1, res.2.1, res.2.2)

/-- The `while url:` pagination loop of `AppStoreEntry.reviews`, instrumented
with the request trace.  `fetch` is the environment (the reviews API reached
through `AppStoreSession._get_api_resource`); a fetch error is the exception the
generator raises.  The incomplete `next` URL of a page is completed by
re-appending the original query string before the next fetch; an absent, null
or empty `next` ends the iteration.  `fuel` bounds the number of iterations:
`none` means the fuel ran out before the loop finished. -/
def reviewsLoop (fetch : Str → Except ScraperError ReviewsResponse) (access_token : Json)
    (limit : Int) (query_string : Str) : Nat → Str → Nat → Option LoopResult
  | 0, _, _ => none
  | fuel + 1, url, review_count =>
    match fetch url with
    | .error e =>
      some { yielded := [], calls := [⟨url, access_token⟩], stoppedByLimit := false
             raised := some e }
    | .ok resp =>
      let step := processItems limit review_count resp.data
      if step.2.2 then
        some { yielded := step.1, calls := [⟨url, access_token⟩], stoppedByLimit := true
               raised := none }
      else
        match resp.next with
        | none =>
          some { yielded := step.1, calls := [⟨url, access_token⟩], stoppedByLimit := false
                 raised := none }
        | some nextUrl =>
          if nextUrl = [] then
            some { yielded := step.1, calls := [⟨url, access_token⟩], stoppedByLimit := false
                   raised := none }
          else
            match reviewsLoop fetch access_token limit query_string fuel
                (nextUrl ++ '&' :: query_string) step.2.1 with
            | none => none
            | some res =>
              some { yielded := step.1 ++ res.yielded
                     calls := ⟨url, access_token⟩ :: res.calls
                     stoppedByLimit := res.stoppedByLimit
                     raised := res.raised }

/-- The endpoint path `f"/v1/catalog/{self.country}/apps/{self.app_id}/reviews"`
built from the entry's stored (normalized) fields. -/
def AppStoreEntry.reviewsPath (e : AppStoreEntry) : Str :=
  chars ("/v1/catalog/") ++ e.country ++ chars ("/apps/") ++ intStr e.app_id
    ++ chars ("/reviews")

/-- Embedding of `AppStoreEntry.reviews`, run to completion against the
environment `fetch`. -/
def AppStoreEntry.reviews (e : AppStoreEntry)
    (fetch : Str → Except ScraperError ReviewsResponse) (limit : Int) (fuel : Nat) :
    Option LoopResult :=
  let query_string := urlencode (reviewsParams limit)
  reviewsLoop fetch e.api_access_token limit query_string fuel
    (e.reviewsPath ++ '?' :: query_string) 0

/-- Query-string portion of a URL: everything after the first `?` (empty when
there is none). -/
def queryOf : Str → Str
  | [] => []
  | c :: cs => if c = '?' then cs else queryOf cs

/-- Path portion of a URL: everything before the first `?`. -/
def pathOf : Str → Str
  | [] => []
  | c :: cs => if c = '?' then [] else c :: pathOf cs

/-- Split a character list at every occurrence of `sep`. -/
def splitOnChar (sep : Char) : Str → List Str
  | [] => [[]]
  | c :: cs =>
    let r := splitOnChar sep cs
    if c = sep then [] :: r
    else
      match r with
      | [] => [[c]]
      | g :: gs => (c :: g) :: gs

/-- Split a `key=value` group at its first `=`. -/
def keyVal : Str → Str × Str
  | [] => ([], [])
  | c :: cs => if c = '=' then ([], cs) else ((keyVal cs).1.cons c, (keyVal cs).2)

/-- Parsed query parameters of a URL.  This models the `request.args` view the
test server's `werkzeug` request object provides (external machinery consumed
as a black box). -/
def queryParams (url : Str) : List (Str × Str) :=
  (splitOnChar '&' (queryOf url)).map keyVal

/-- The lookup `request.args.get(key)`. -/
def argsGet (url : Str) (key : Str) : Option Str :=
  (queryParams url).lookup key

/-- The expression `int(request.args.get("offset", 0))` of the test server's
request handler; `none` models the `ValueError` of a malformed offset. -/
def offsetOf (url : Str) : Option Nat :=
  match argsGet url (chars ("offset")) with
  | none => some 0
  | some v => parseNat v

/-- The JSON serialisation of one fake review by `mock_app_reviews` in
`tests/test_all.py` (the test fixture never carries a developer response, and
its serialiser emits no `developerResponse` key). -/
def reviewItemOf (r : AppReview) : ReviewItem :=
  { id := r.id
    attributes :=
      { date := r.date, userName := r.user_name, title := r.title, review := r.review
        rating := r.rating, isEdited := r.is_edited, developerResponse := none } }

/-- The fake reviews backend of `tests/test_all.py` (`mock_app_reviews`): for a
request to the registered path it serves `reviews[offset : offset + page_size]`
and, whenever the served page is non-empty, a `next` URL of the form
`f"{path}?offset={next_offset}"` carrying only the new offset.  Requests to any
other path fail (the test server knows no other route), and a malformed offset
is a server-side error. -/
def mockReviewsServer (reviews : List AppReview) (page_size : Nat) (path : Str)
    (url : Str) : Except ScraperError ReviewsResponse :=
  if pathOf url = path then
    match offsetOf url with
    | some offset =>
      let page := (reviews.drop offset).take page_size
      .ok { data := page.map reviewItemOf
            next :=
              if 0 < page.length then
                some (path ++ chars ("?offset=") ++ natStr (offset + page_size))
              else none }
    | none => .error (.appStoreError (chars ("malformed offset")))
  else .error (.appStoreError (chars ("unknown path")))

/-- Ceiling division on naturals. -/
def ceilDiv (n p : Nat) : Nat := (n + p - 1) / p

/-- The first URL requested by `AppStoreEntry.reviews`. -/
def firstUrl (path qs : Str) : Str := path ++ '?' :: qs

/-- The incomplete continuation URL the mock server produces for offset
`off`. -/
def nextUrlRaw (path : Str) (off : Nat) : Str :=
  path ++ chars ("?offset=") ++ natStr off

/-- The URL of the `k`-th fetch of the pagination loop against the mock server
with page size `page_size`: the initial URL for `k = 0`, and afterwards the
server's continuation URL completed with the original query string. -/
def urlAt (path qs : Str) (page_size : Nat) : Nat → Str
  | 0 => firstUrl path qs
  | k + 1 => nextUrlRaw path ((k + 1) * page_size) ++ '&' :: qs

/-- Alphabetic-only strings (the shape of a country code). -/
abbrev alphaStr (s : Str) : Prop := ∀ c ∈ s, c.isAlpha

/-- Structural version of Lean's decimal printer, used to reason about
`Nat.toDigits`. -/
def digitsAux (n : Nat) : List Char :=
  if n < 10 then [Nat.digitChar n]
  else digitsAux (n / 10) ++ [Nat.digitChar (n % 10)]
decreasing_by exact Nat.div_lt_self (by omega) (by omega)

/-- A sample review fixture used by concrete witnesses. -/
def sampleReview (k : Nat) : AppReview :=
  { id := (k : Int), date := chars ("d"), user_name := chars ("u"), title := chars ("t")
    review := chars ("r"), rating := 5, is_edited := false, developer_response := none }

/-- A sample entry fixture used by concrete witnesses. -/
def sampleEntry : AppStoreEntry :=
  { app_id := 9, country := chars ("de"), api_access_token := Json.str (chars ("T")) }

/-- App page environment that always answers 404, used by concrete witnesses. -/
def web404 : Str → PageResponse := fun _ => { status := 404, body := { configTag := none } }

/-- App page environment whose page carries no config tag. -/
def webNoTag : Str → PageResponse := fun _ => { status := 200, body := { configTag := none } }

/-- App page environment whose config JSON lacks the `MEDIA_API` key. -/
def webEmptyConfig : Str → PageResponse :=
  fun _ => { status := 200, body := { configTag := some (Json.obj []) } }

/-- App page environment with a well-formed config carrying token `"T"`. -/
def webGood : Str → PageResponse :=
  fun _ =>
    { status := 200
      body :=
        { configTag := some (Json.obj
            [(chars ("MEDIA_API"), Json.obj [(chars ("token"), Json.str (chars ("T")))])]) } }

/-! ### Character and decimal-printing lemmas -/

theorem char_ne_of_class {p : Char → Bool} {c x : Char} (h : p c = true)
    (hx : p x = false) : c ≠ x := by
  intro he
  subst he
  rw [h] at hx
  simp at hx

theorem digitChar_isDigit {n : Nat} (h : n < 10) : (Nat.digitChar n).isDigit = true := by
  interval_cases n <;> decide

theorem digitVal_digitChar {n : Nat} (h : n < 10) : digitVal (Nat.digitChar n) = some n := by
  interval_cases n <;> decide

theorem toDigitsCore_eq_digitsAux :
    ∀ (fuel n : Nat) (ds : List Char), n < fuel →
      Nat.toDigitsCore 10 fuel n ds = digitsAux n ++ ds := by
  intro fuel
  induction fuel with
  | zero => intro n ds h; omega
  | succ f ih =>
    intro n ds h
    rw [Nat.toDigitsCore]
    by_cases hz : n / 10 = 0
    · have hn : n < 10 := by omega
      simp only [hz, if_pos]
      rw [digitsAux, if_pos hn, Nat.mod_eq_of_lt hn]
      simp
    · have hn : ¬ n < 10 := by omega
      simp only [hz, if_neg, if_false]
      rw [ih (n / 10) _ (by omega)]
      conv_rhs => rw [digitsAux, if_neg hn]
      simp

theorem natStr_eq_digitsAux (n : Nat) : natStr n = digitsAux n := by
  unfold natStr Nat.toDigits
  rw [toDigitsCore_eq_digitsAux (n + 1) n [] (by omega)]
  simp

theorem digitsAux_digits (n : Nat) : ∀ c ∈ digitsAux n, c.isDigit = true := by
  induction n using Nat.strong_induction_on with
  | _ n ih =>
    intro c hc
    rw [digitsAux] at hc
    by_cases hn : n < 10
    · rw [if_pos hn] at hc
      simp at hc
      subst hc
      exact digitChar_isDigit hn
    · rw [if_neg hn] at hc
      rcases List.mem_append.mp hc with h1 | h2
      · exact ih (n / 10) (Nat.div_lt_self (by omega) (by omega)) c h1
      · simp at h2
        subst h2
        exact digitChar_isDigit (by omega)

theorem natStr_digits (n : Nat) : ∀ c ∈ natStr n, c.isDigit = true := by
  rw [natStr_eq_digitsAux]
  exact digitsAux_digits n

theorem digitsAux_ne_nil (n : Nat) : digitsAux n ≠ [] := by
  rw [digitsAux]
  by_cases hn : n < 10
  · rw [if_pos hn]; simp
  · rw [if_neg hn]; simp

theorem natStr_ne_nil (n : Nat) : natStr n ≠ [] := by
  rw [natStr_eq_digitsAux]; exact digitsAux_ne_nil n

theorem parseNatFold_append (l1 l2 : List Char) :
    ∀ acc, parseNatFold (l1 ++ l2) acc =
      match parseNatFold l1 acc with
      | some a => parseNatFold l2 a
      | none => none := by
  induction l1 with
  | nil => intro acc; rfl
  | cons c cs ih =>
    intro acc
    simp only [List.cons_append, parseNatFold]
    cases hd : digitVal c with
    | some d =>
      simp only [hd]
      exact ih (acc * 10 + d)
    | none => simp only [hd]

theorem parseNatFold_digitsAux (n : Nat) :
    ∀ acc, parseNatFold (digitsAux n) acc =
      some (acc * 10 ^ (digitsAux n).length + n) := by
  induction n using Nat.strong_induction_on with
  | _ n ih =>
    intro acc
    by_cases hn : n < 10
    · rw [digitsAux, if_pos hn]
      simp only [parseNatFold, digitVal_digitChar hn]
      simp
    · conv_lhs => rw [digitsAux, if_neg hn]
      rw [parseNatFold_append, ih (n / 10) (Nat.div_lt_self (by omega) (by omega))]
      simp only [parseNatFold, digitVal_digitChar (show n % 10 < 10 by omega)]
      have hlen : (digitsAux n).length = (digitsAux (n / 10)).length + 1 := by
        conv_lhs => rw [digitsAux, if_neg hn]
        simp
      rw [hlen, pow_succ, ← mul_assoc]
      congr 1
      generalize acc * 10 ^ (digitsAux (n / 10)).length = A
      omega

theorem parseNat_natStr (n : Nat) : parseNat (natStr n) = some n := by
  rw [natStr_eq_digitsAux]
  cases hd : digitsAux n with
  | nil => exact absurd hd (digitsAux_ne_nil n)
  | cons c cs =>
    show parseNatFold (c :: cs) 0 = some n
    rw [← hd, parseNatFold_digitsAux n 0]
    simp

theorem not_mem_natStr {x : Char} (hx : x.isDigit = false) (n : Nat) : x ∉ natStr n := by
  intro hmem
  have := natStr_digits n x hmem
  rw [hx] at this
  simp at this

theorem not_mem_intStr {x : Char} (hx : x.isDigit = false) (hd : x ≠ '-') (i : Int) :
    x ∉ intStr i := by
  unfold intStr
  by_cases hneg : i < 0
  · rw [if_pos hneg]
    intro hmem
    rcases List.mem_cons.mp hmem with h1 | h2
    · exact hd h1
    · exact not_mem_natStr hx _ h2
  · rw [if_neg hneg]
    exact not_mem_natStr hx _

theorem hexDigit_isAlphanum (n : Nat) : (hexDigit n).isAlphanum = true := by
  unfold hexDigit
  split <;> rfl

theorem mem_quotePlusChar {x c : Char} (h : x ∈ quotePlusChar c) :
    x.isAlphanum = true ∨ x = '_' ∨ x = '.' ∨ x = '-' ∨ x = '~' ∨ x = '+' ∨ x = '%' := by
  unfold quotePlusChar at h
  split_ifs at h with h1 h2
  · simp at h
    subst h
    tauto
  · simp at h
    subst h
    tauto
  · simp at h
    rcases h with h | h | h
    · subst h; tauto
    · subst h; left; exact hexDigit_isAlphanum _
    · subst h; left; exact hexDigit_isAlphanum _

theorem not_mem_quote_plus {x : Char}
    (hx : ¬ (x.isAlphanum = true ∨ x = '_' ∨ x = '.' ∨ x = '-' ∨ x = '~' ∨ x = '+' ∨ x = '%')) :
    ∀ s, x ∉ quote_plus s := by
  intro s
  induction s with
  | nil => simp [quote_plus]
  | cons c cs ih =>
    rw [quote_plus]
    intro hmem
    rcases List.mem_append.mp hmem with h1 | h2
    · exact hx (mem_quotePlusChar h1)
    · exact ih h2

theorem amp_not_mem_quote_plus (s : Str) : '&' ∉ quote_plus s :=
  not_mem_quote_plus (by decide) s

theorem eq_not_mem_quote_plus (s : Str) : '=' ∉ quote_plus s :=
  not_mem_quote_plus (by decide) s

theorem qmark_not_mem_quote_plus (s : Str) : '?' ∉ quote_plus s :=
  not_mem_quote_plus (by decide) s

/-! ### URL parsing lemmas -/

theorem queryOf_append {a : Str} (b : Str) (h : '?' ∉ a) : queryOf (a ++ '?' :: b) = b := by
  induction a with
  | nil => simp [queryOf]
  | cons c cs ih =>
    simp only [List.mem_cons, not_or] at h
    simp only [List.cons_append, queryOf]
    rw [if_neg (fun he => h.1 he.symm)]
    exact ih h.2

theorem pathOf_append {a : Str} (b : Str) (h : '?' ∉ a) : pathOf (a ++ '?' :: b) = a := by
  induction a with
  | nil => simp [pathOf]
  | cons c cs ih =>
    simp only [List.mem_cons, not_or] at h
    simp only [List.cons_append, pathOf, List.append_eq]
    rw [if_neg (fun he => h.1 he.symm), ih h.2]

theorem splitOnChar_not_mem {sep : Char} {l : Str} (h : sep ∉ l) :
    splitOnChar sep l = [l] := by
  induction l with
  | nil => rfl
  | cons c cs ih =>
    simp only [List.mem_cons, not_or] at h
    simp only [splitOnChar]
    rw [if_neg (fun he => h.1 he.symm), ih h.2]

theorem splitOnChar_append {sep : Char} {a : Str} (b : Str) (h : sep ∉ a) :
    splitOnChar sep (a ++ sep :: b) = a :: splitOnChar sep b := by
  induction a with
  | nil => simp [splitOnChar]
  | cons c cs ih =>
    simp only [List.mem_cons, not_or] at h
    simp only [List.cons_append, splitOnChar, List.append_eq]
    rw [if_neg (fun he => h.1 he.symm), ih h.2]

theorem keyVal_no_eq {a : Str} (h : '=' ∉ a) : keyVal a = (a, []) := by
  induction a with
  | nil => rfl
  | cons c cs ih =>
    simp only [List.mem_cons, not_or] at h
    simp only [keyVal, List.append_eq]
    rw [if_neg (fun he => h.1 he.symm), ih h.2]

theorem keyVal_append {a : Str} (b : Str) (h : '=' ∉ a) : keyVal (a ++ '=' :: b) = (a, b) := by
  induction a with
  | nil => simp [keyVal]
  | cons c cs ih =>
    simp only [List.mem_cons, not_or] at h
    simp only [List.cons_append, keyVal, List.append_eq]
    rw [if_neg (fun he => h.1 he.symm), ih h.2]

theorem isAlphanum_of_isDigit {c : Char} (h : c.isDigit = true) : c.isAlphanum = true := by
  simp [Char.isAlphanum, h]

theorem quote_plus_eq_self {s : Str} (h : ∀ c ∈ s, c.isAlphanum = true) :
    quote_plus s = s := by
  induction s with
  | nil => rfl
  | cons c cs ih =>
    rw [quote_plus]
    have hc : quotePlusChar c = [c] := by
      unfold quotePlusChar
      rw [if_pos (Or.inl (h c (List.mem_cons_self c cs)))]
    rw [hc, ih (fun x hx => h x (List.mem_cons_of_mem c hx))]
    rfl

theorem amp_not_mem_group (k v : Str) : '&' ∉ quote_plus k ++ '=' :: quote_plus v := by
  intro hmem
  rcases List.mem_append.mp hmem with h1 | h2
  · exact amp_not_mem_quote_plus _ h1
  · rcases List.mem_cons.mp h2 with h3 | h4
    · exact absurd h3 (by decide)
    · exact amp_not_mem_quote_plus _ h4

theorem splitOnChar_urlencode :
    ∀ ps : List (Str × Str), ps ≠ [] →
      splitOnChar '&' (urlencode ps) =
        ps.map (fun p => quote_plus p.1 ++ '=' :: quote_plus p.2) := by
  intro ps
  induction ps with
  | nil => intro h; exact absurd rfl h
  | cons p ps ih =>
    intro _
    cases ps with
    | nil =>
      rw [urlencode]
      rw [splitOnChar_not_mem (amp_not_mem_group p.1 p.2)]
      rfl
    | cons q qs =>
      rw [urlencode, splitOnChar_append _ (amp_not_mem_group p.1 p.2), ih (by simp)]
      · rfl
      · simp

theorem queryParams_firstUrl {path : Str} (hpath : '?' ∉ path) (ps : List (Str × Str))
    (hne : ps ≠ []) :
    queryParams (firstUrl path (urlencode ps)) =
      ps.map (fun p => (quote_plus p.1, quote_plus p.2)) := by
  unfold queryParams firstUrl
  rw [queryOf_append _ hpath, splitOnChar_urlencode ps hne, List.map_map]
  apply List.map_congr_left
  intro p _
  show keyVal (quote_plus p.1 ++ '=' :: quote_plus p.2) = _
  rw [keyVal_append _ (eq_not_mem_quote_plus p.1)]

theorem queryParams_of_qs {path : Str} (hpath : '?' ∉ path) (qs : Str) :
    queryParams (firstUrl path qs) = (splitOnChar '&' qs).map keyVal := by
  unfold queryParams firstUrl
  rw [queryOf_append _ hpath]

theorem queryParams_nextUrl {path : Str} (hpath : '?' ∉ path) (off : Nat) (qs : Str) :
    queryParams (nextUrlRaw path off ++ '&' :: qs) =
      (chars ("offset"), natStr off) :: queryParams (firstUrl path qs) := by
  have hq : chars ("?offset=") = '?' :: chars ("offset=") := rfl
  unfold queryParams nextUrlRaw firstUrl
  rw [hq]
  have h1 : path ++ '?' :: chars ("offset=") ++ natStr off ++ '&' :: qs
      = path ++ '?' :: (chars ("offset=") ++ (natStr off ++ '&' :: qs)) := by
    simp
  rw [h1, queryOf_append _ hpath, queryOf_append _ hpath]
  have h2 : chars ("offset=") ++ (natStr off ++ '&' :: qs)
      = (chars ("offset=") ++ natStr off) ++ '&' :: qs := by
    simp
  have h3 : '&' ∉ chars ("offset=") ++ natStr off := by
    intro hmem
    rcases List.mem_append.mp hmem with hmem1 | hmem2
    · exact absurd hmem1 (by decide)
    · exact not_mem_natStr (by decide) off hmem2
  rw [h2, splitOnChar_append _ h3]
  have h4 : chars ("offset=") ++ natStr off = chars ("offset") ++ '=' :: natStr off := rfl
  show keyVal (chars ("offset=") ++ natStr off) :: _ = _
  rw [h4, keyVal_append _ (by decide)]

theorem offsetOf_nextUrl {path : Str} (hpath : '?' ∉ path) (off : Nat) (qs : Str) :
    offsetOf (nextUrlRaw path off ++ '&' :: qs) = some off := by
  unfold offsetOf argsGet
  rw [queryParams_nextUrl hpath off qs]
  rw [List.lookup_cons_self]
  exact parseNat_natStr off

theorem lookup_offset_encoded (limit : Int) :
    ((reviewsParams limit).map (fun p => (quote_plus p.1, quote_plus p.2))).lookup
      (chars ("offset")) = none := by
  have e1 : (chars ("offset") == quote_plus (chars ("platform"))) = false := by decide
  have e2 : (chars ("offset") == quote_plus (chars ("additionalPlatforms"))) = false := by
    decide
  have e3 : (chars ("offset") == quote_plus (chars ("sort"))) = false := by decide
  have e4 : (chars ("offset") == quote_plus (chars ("limit"))) = false := by decide
  simp only [reviewsParams, List.map, List.lookup, e1, e2, e3, e4]

theorem offsetOf_firstUrl {path : Str} (hpath : '?' ∉ path) (limit : Int) :
    offsetOf (firstUrl path (urlencode (reviewsParams limit))) = some 0 := by
  unfold offsetOf argsGet
  rw [queryParams_firstUrl hpath _ (by simp [reviewsParams]), lookup_offset_encoded limit]

theorem pathOf_firstUrl {path : Str} (hpath : '?' ∉ path) (qs : Str) :
    pathOf (firstUrl path qs) = path :=
  pathOf_append qs hpath

theorem pathOf_nextUrl {path : Str} (hpath : '?' ∉ path) (off : Nat) (qs : Str) :
    pathOf (nextUrlRaw path off ++ '&' :: qs) = path := by
  have hq : chars ("?offset=") = '?' :: chars ("offset=") := rfl
  unfold nextUrlRaw
  rw [hq]
  have h1 : path ++ '?' :: chars ("offset=") ++ natStr off ++ '&' :: qs
      = path ++ '?' :: (chars ("offset=") ++ (natStr off ++ '&' :: qs)) := by
    simp
  rw [h1, pathOf_append _ hpath]

theorem mockReviewsServer_eval (rs : List AppReview) (P : Nat) {path url : Str} {off : Nat}
    (hp : pathOf url = path) (ho : offsetOf url = some off) :
    mockReviewsServer rs P path url =
      .ok { data := ((rs.drop off).take P).map reviewItemOf
            next := if 0 < ((rs.drop off).take P).length
                    then some (nextUrlRaw path (off + P)) else none } := by
  unfold mockReviewsServer
  rw [if_pos hp, ho]
  rfl

/-! ### Arithmetic and data lemmas -/

theorem ceilDiv_zero_left {p : Nat} (hp : 0 < p) : ceilDiv 0 p = 0 := by
  unfold ceilDiv
  exact Nat.div_eq_of_lt (by omega)

theorem ceilDiv_step {n p : Nat} (hp : 0 < p) (hn : 0 < n) :
    ceilDiv n p = ceilDiv (n - p) p + 1 := by
  unfold ceilDiv
  by_cases hle : n ≤ p
  · have h0 : n - p = 0 := by omega
    have h1 : n + p - 1 = (n - 1) + p := by omega
    rw [h0, h1, Nat.add_div_right _ hp]
    have h2 : (n - 1) / p = 0 := Nat.div_eq_of_lt (by omega)
    have h3 : (0 + p - 1) / p = 0 := Nat.div_eq_of_lt (by omega)
    rw [h2, h3]
  · have h1 : n + p - 1 = (n - p + p - 1) + p := by omega
    rw [h1, Nat.add_div_right _ hp]

theorem ceilDiv_le (n : Nat) {p : Nat} (hp : 0 < p) : ceilDiv n p ≤ n := by
  induction n using Nat.strong_induction_on with
  | _ n ih =>
    by_cases hn : n = 0
    · subst hn
      rw [ceilDiv_zero_left hp]
    · rw [ceilDiv_step hp (by omega)]
      have := ih (n - p) (by omega)
      omega

theorem le_ceilDiv_mul {n p : Nat} (hp : 0 < p) : n ≤ ceilDiv n p * p := by
  induction n using Nat.strong_induction_on with
  | _ n ih =>
    by_cases hn : n = 0
    · omega
    · rw [ceilDiv_step hp (by omega), Nat.add_mul, Nat.one_mul]
      have := ih (n - p) (by omega)
      omega

theorem ceilDiv_eq_one {n p : Nat} (hp : 0 < p) (h1 : 0 < n) (h2 : n ≤ p) :
    ceilDiv n p = 1 := by
  rw [ceilDiv_step hp h1, show n - p = 0 by omega, ceilDiv_zero_left hp]

theorem mul_lt_of_lt_ceilDiv {k n p : Nat} (hp : 0 < p) (h : k < ceilDiv n p) :
    k * p < n := by
  by_contra hc
  push_neg at hc
  have h1 : ceilDiv n p ≤ ceilDiv (k * p) p := by
    unfold ceilDiv
    exact Nat.div_le_div_right (by omega)
  have h2 : ceilDiv (k * p) p ≤ k := by
    unfold ceilDiv
    have h3 : k * p + p - 1 = (p - 1) + k * p := by omega
    rw [h3, Nat.add_mul_div_right _ _ hp, Nat.div_eq_of_lt (by omega)]
    omega
  omega

theorem parse_reviewItem {r : AppReview} (h : r.developer_response = none) :
    _parse_app_review (reviewItemOf r) = r := by
  unfold _parse_app_review reviewItemOf
  cases r
  simp only at h
  subst h
  rfl

theorem map_parse_reviewItem {l : List AppReview} (h : ∀ r ∈ l, r.developer_response = none) :
    (l.map reviewItemOf).map _parse_app_review = l := by
  rw [List.map_map]
  have h2 : ∀ r ∈ l, (_parse_app_review ∘ reviewItemOf) r = id r := fun r hr =>
    parse_reviewItem (h r hr)
  rw [List.map_congr_left h2, List.map_id]

theorem nextUrlRaw_ne_nil (path : Str) (off : Nat) : nextUrlRaw path off ≠ [] := by
  unfold nextUrlRaw
  intro h
  rcases List.append_eq_nil.mp h with ⟨h12, h3⟩
  rcases List.append_eq_nil.mp h12 with ⟨h1, h2⟩
  exact absurd h2 (by decide)

theorem qmark_not_mem_reviewsPath {e : AppStoreEntry} (h : alphaStr e.country) :
    '?' ∉ e.reviewsPath := by
  unfold AppStoreEntry.reviewsPath
  intro hmem
  simp only [List.mem_append] at hmem
  rcases hmem with (((h1 | h2) | h3) | h4) | h5
  · exact absurd h1 (by decide)
  · exact absurd (h ('?') h2) (by decide)
  · exact absurd h3 (by decide)
  · exact not_mem_intStr (by decide) (by decide) _ h4
  · exact absurd h5 (by decide)

/-! ### The item-processing loop -/

theorem processItems_pass {limit : Int} {items : List ReviewItem} :
    ∀ {review_count : Nat},
      (0 < limit → review_count + items.length < limit.toNat) →
      processItems limit review_count items =
        (items.map _parse_app_review, review_count + items.length, false) := by
  induction items with
  | nil => intro rc _; simp [processItems]
  | cons item rest ih =>
    intro rc h
    rw [processItems]
    rw [if_neg (by
      rintro ⟨hl, he⟩
      have h1 := h hl
      simp only [List.length_cons] at h1
      omega)]
    rw [ih (by
      intro hl
      have h1 := h hl
      simp only [List.length_cons] at h1
      omega)]
    simp only [List.map_cons, List.length_cons, Prod.mk.injEq, true_and, and_true]
    omega

theorem processItems_hit {limit : Int} {items : List ReviewItem} (hl : 0 < limit) :
    ∀ {review_count : Nat}, review_count < limit.toNat →
      limit.toNat - review_count ≤ items.length →
      processItems limit review_count items =
        ((items.take (limit.toNat - review_count)).map _parse_app_review,
          limit.toNat, true) := by
  induction items with
  | nil =>
    intro rc hc hlen
    simp only [List.length_nil] at hlen
    omega
  | cons item rest ih =>
    intro rc hc hlen
    rw [processItems]
    by_cases he : rc + 1 = limit.toNat
    · rw [if_pos ⟨hl, by omega⟩]
      have h1 : limit.toNat - rc = 1 := by omega
      rw [h1]
      simp only [List.take_succ_cons, List.take_zero, List.map_cons, List.map_nil,
        Prod.mk.injEq, true_and, and_true]
      omega
    · rw [if_neg (by rintro ⟨h1, h2⟩; omega)]
      rw [ih (by omega) (by
        simp only [List.length_cons] at hlen
        omega)]
      have h2 : limit.toNat - rc = (limit.toNat - (rc + 1)) + 1 := by omega
      rw [h2]
      simp only [List.take_succ_cons, List.map_cons]

/-! ### Pagination-loop lemmas -/

theorem reviewsLoop_step {fetch : Str → Except ScraperError ReviewsResponse} {tok : Json}
    {limit : Int} {qs : Str} {f : Nat} {url : Str} {rc : Nat}
    {dataL : List ReviewItem} {nextV : Option Str}
    (hf : fetch url = .ok { data := dataL, next := nextV }) :
    reviewsLoop fetch tok limit qs (f + 1) url rc =
      (if (processItems limit rc dataL).2.2 then
        some { yielded := (processItems limit rc dataL).1, calls := [⟨url, tok⟩]
               stoppedByLimit := true, raised := none }
      else
        match nextV with
        | none =>
          some { yielded := (processItems limit rc dataL).1, calls := [⟨url, tok⟩]
                 stoppedByLimit := false, raised := none }
        | some nextUrl =>
          if nextUrl = [] then
            some { yielded := (processItems limit rc dataL).1, calls := [⟨url, tok⟩]
                   stoppedByLimit := false, raised := none }
          else
            match reviewsLoop fetch tok limit qs f (nextUrl ++ '&' :: qs)
                (processItems limit rc dataL).2.1 with
            | none => none
            | some res =>
              some { yielded := (processItems limit rc dataL).1 ++ res.yielded
                     calls := ⟨url, tok⟩ :: res.calls
                     stoppedByLimit := res.stoppedByLimit
                     raised := res.raised }) := by
  rw [reviewsLoop, hf]

theorem reviewsLoop_error {fetch : Str → Except ScraperError ReviewsResponse} {tok : Json}
    {limit : Int} {qs : Str} {f : Nat} {url : Str} {rc : Nat} {e : ScraperError}
    (hf : fetch url = .error e) :
    reviewsLoop fetch tok limit qs (f + 1) url rc =
      some { yielded := [], calls := [⟨url, tok⟩], stoppedByLimit := false
             raised := some e } := by
  rw [reviewsLoop, hf]

theorem reviewsLoop_token {fetch : Str → Except ScraperError ReviewsResponse} {tok : Json}
    {limit : Int} {qs : Str} :
    ∀ (fuel : Nat) (url : Str) (review_count : Nat) (res : LoopResult),
      reviewsLoop fetch tok limit qs fuel url review_count = some res →
      ∀ call ∈ res.calls, call.access_token = tok := by
  intro fuel
  induction fuel with
  | zero =>
    intro url rc res h
    exact absurd h (by rw [reviewsLoop]; simp)
  | succ f ih =>
    intro url rc res h
    cases hf : fetch url with
    | error e =>
      rw [reviewsLoop_error hf] at h
      have h2 := Option.some.inj h
      subst h2
      intro call hc
      simp only [List.mem_singleton] at hc
      subst hc
      rfl
    | ok resp =>
      have hf2 : fetch url = .ok { data := resp.data, next := resp.next } := by rw [hf]
      rw [reviewsLoop_step hf2] at h
      split at h
      · have h2 := Option.some.inj h
        subst h2
        intro call hc
        simp only [List.mem_singleton] at hc
        subst hc
        rfl
      · split at h
        · have h2 := Option.some.inj h
          subst h2
          intro call hc
          simp only [List.mem_singleton] at hc
          subst hc
          rfl
        · split at h
          · have h2 := Option.some.inj h
            subst h2
            intro call hc
            simp only [List.mem_singleton] at hc
            subst hc
            rfl
          · split at h
            · exact absurd h (by simp)
            · rename_i res2 heq
              have h2 := Option.some.inj h
              subst h2
              intro call hc
              rcases List.mem_cons.mp hc with h3 | h3
              · subst h3; rfl
              · exact ih _ _ res2 heq call h3

theorem reviewsLoop_nonpos_eq {fetch : Str → Except ScraperError ReviewsResponse}
    {tok : Json} {qs : Str} {limit : Int} (hl : limit ≤ 0) :
    ∀ (fuel : Nat) (url : Str) (review_count : Nat),
      reviewsLoop fetch tok limit qs fuel url review_count =
        reviewsLoop fetch tok 0 qs fuel url review_count := by
  intro fuel
  induction fuel with
  | zero => intro url rc; rfl
  | succ f ih =>
    intro url rc
    cases hf : fetch url with
    | error e => rw [reviewsLoop_error hf, reviewsLoop_error hf]
    | ok resp =>
      have hf2 : fetch url = .ok { data := resp.data, next := resp.next } := by
        rw [hf]
      rw [reviewsLoop_step hf2, reviewsLoop_step hf2]
      rw [processItems_pass (fun h => absurd h (by omega)),
        processItems_pass (fun h => absurd h (by omega))]
      simp only [ih]

theorem reviewsLoop_mock_pass (rs : List AppReview) (P : Nat) (path : Str) (limit : Int)
    (tok : Json) (hP : 0 < P) (hpath : '?' ∉ path)
    (hdev : ∀ r ∈ rs, r.developer_response = none) :
    ∀ (fuel k review_count : Nat),
      (0 < limit → review_count + (rs.length - k * P) < limit.toNat) →
      ceilDiv (rs.length - k * P) P + 1 ≤ fuel →
      reviewsLoop (mockReviewsServer rs P path) tok limit
          (urlencode (reviewsParams limit)) fuel
          (urlAt path (urlencode (reviewsParams limit)) P k) review_count
        = some { yielded := rs.drop (k * P)
                 calls := (List.range (ceilDiv (rs.length - k * P) P + 1)).map
                   (fun i => ⟨urlAt path (urlencode (reviewsParams limit)) P (k + i), tok⟩)
                 stoppedByLimit := false
                 raised := none } := by
  intro fuel
  induction fuel with
  | zero => intro k rc hcnt hfuel; omega
  | succ f ih =>
    intro k rc hcnt hfuel
    have hofs : offsetOf (urlAt path (urlencode (reviewsParams limit)) P k)
        = some (k * P) := by
      cases k with
      | zero =>
        have h0 := offsetOf_firstUrl hpath limit
        simpa [urlAt] using h0
      | succ k0 =>
        exact offsetOf_nextUrl hpath ((k0 + 1) * P) (urlencode (reviewsParams limit))
    have hpa : pathOf (urlAt path (urlencode (reviewsParams limit)) P k) = path := by
      cases k with
      | zero =>
        simpa [urlAt, firstUrl] using
          pathOf_append (urlencode (reviewsParams limit)) hpath
      | succ k0 =>
        exact pathOf_nextUrl hpath ((k0 + 1) * P) (urlencode (reviewsParams limit))
    have hfetch := mockReviewsServer_eval rs P hpa hofs
    rw [reviewsLoop_step hfetch]
    by_cases hend : rs.length ≤ k * P
    · -- the loop reached the empty page: one last fetch, no continuation
      have hlen0 : rs.length - k * P = 0 := by omega
      have hdrop : rs.drop (k * P) = [] := List.length_eq_zero.mp (by simp [hlen0])
      rw [hdrop]
      rw [processItems_pass (by
        intro hl
        have h1 := hcnt hl
        simp only [List.length_map, List.length_take, List.length_nil, List.take_nil]
        omega)]
      rw [if_neg (by simp)]
      simp only [List.take_nil, List.map_nil, List.length_nil]
      rw [if_neg (Nat.lt_irrefl 0)]
      rw [hlen0, ceilDiv_zero_left hP]
      simp [List.range_succ]
    · -- a non-empty page followed by a recursive call at offset (k+1)·P
      push_neg at hend
      have hpos : 0 < rs.length - k * P := by omega
      have hpagepos : 0 < ((rs.drop (k * P)).take P).length := by
        simp only [List.length_take, List.length_drop]
        omega
      rw [if_pos hpagepos]
      rw [processItems_pass (by
        intro hl
        have h1 := hcnt hl
        simp only [List.length_map, List.length_take, List.length_drop]
        omega)]
      rw [if_neg (by simp)]
      dsimp only
      rw [if_neg (nextUrlRaw_ne_nil path (k * P + P))]
      have hurl : nextUrlRaw path (k * P + P) ++ '&' :: urlencode (reviewsParams limit)
          = urlAt path (urlencode (reviewsParams limit)) P (k + 1) := by
        simp [urlAt, Nat.succ_mul]
      rw [hurl]
      have harith : rs.length - (k + 1) * P = rs.length - k * P - P := by
        rw [Nat.succ_mul]
        omega
      have hcnt2 : 0 < limit →
          rc + (((rs.drop (k * P)).take P).map reviewItemOf).length
            + (rs.length - (k + 1) * P) < limit.toNat := by
        intro hl
        have h1 := hcnt hl
        simp only [List.length_map, List.length_take, List.length_drop, harith]
        omega
      have hfuel2 : ceilDiv (rs.length - (k + 1) * P) P + 1 ≤ f := by
        have hstep2 : ceilDiv (rs.length - k * P) P
            = ceilDiv (rs.length - k * P - P) P + 1 := ceilDiv_step hP hpos
        rw [harith]
        omega
      rw [ih (k + 1) (rc + (((rs.drop (k * P)).take P).map reviewItemOf).length)
        hcnt2 hfuel2]
      dsimp only
      simp only [Option.some.injEq, LoopResult.mk.injEq, and_true, true_and]
      have hM : ceilDiv (rs.length - k * P) P
          = ceilDiv (rs.length - (k + 1) * P) P + 1 := by
        rw [harith]
        exact ceilDiv_step hP hpos
      refine ⟨?_, ?_⟩
      · rw [map_parse_reviewItem
          (fun r hr => hdev r (List.drop_subset _ _ (List.take_subset _ _ hr)))]
        have h5 : rs.drop ((k + 1) * P) = (rs.drop (k * P)).drop P := by
          rw [List.drop_drop]
          congr 1
          rw [Nat.succ_mul]
        rw [h5, List.take_append_drop]
      · rw [hM]
        conv_rhs => rw [List.range_succ_eq_map]
        simp only [List.map_cons, List.map_map]
        congr 1
        apply List.map_congr_left
        intro i _
        simp only [Function.comp_apply]
        rw [show k + Nat.succ i = k + 1 + i from by omega]

theorem take_take_min {α : Type} (l : List α) :
    ∀ (m n : Nat), (l.take n).take m = l.take (min m n) := by
  induction l with
  | nil => simp
  | cons a t ih =>
    intro m n
    cases n with
    | zero => simp
    | succ n0 =>
      cases m with
      | zero => simp
      | succ m0 =>
        simp only [List.take_succ_cons, Nat.succ_min_succ]
        rw [ih]

theorem take_add_append {α : Type} (l : List α) :
    ∀ (m n : Nat), l.take (m + n) = l.take m ++ (l.drop m).take n := by
  induction l with
  | nil => simp
  | cons a t ih =>
    intro m n
    cases m with
    | zero => simp
    | succ m0 =>
      simp only [Nat.succ_add, List.take_succ_cons, List.drop_succ_cons, List.cons_append]
      rw [ih]

theorem reviewsLoop_mock_hit (rs : List AppReview) (P : Nat) (path : Str) (limit : Int)
    (tok : Json) (hP : 0 < P) (hpath : '?' ∉ path)
    (hdev : ∀ r ∈ rs, r.developer_response = none)
    (hlim : 0 < limit) (hLN : limit.toNat ≤ rs.length) :
    ∀ (fuel k : Nat),
      k * P < limit.toNat →
      ceilDiv (limit.toNat - k * P) P ≤ fuel →
      reviewsLoop (mockReviewsServer rs P path) tok limit
          (urlencode (reviewsParams limit)) fuel
          (urlAt path (urlencode (reviewsParams limit)) P k) (k * P)
        = some { yielded := (rs.drop (k * P)).take (limit.toNat - k * P)
                 calls := (List.range (ceilDiv (limit.toNat - k * P) P)).map
                   (fun i => ⟨urlAt path (urlencode (reviewsParams limit)) P (k + i), tok⟩)
                 stoppedByLimit := true
                 raised := none } := by
  intro fuel
  induction fuel with
  | zero =>
    intro k hk hfuel
    have h1 := ceilDiv_step hP (show 0 < limit.toNat - k * P by omega)
    omega
  | succ f ih =>
    intro k hk hfuel
    have hofs : offsetOf (urlAt path (urlencode (reviewsParams limit)) P k)
        = some (k * P) := by
      cases k with
      | zero =>
        have h0 := offsetOf_firstUrl hpath limit
        simpa [urlAt] using h0
      | succ k0 =>
        exact offsetOf_nextUrl hpath ((k0 + 1) * P) (urlencode (reviewsParams limit))
    have hpa : pathOf (urlAt path (urlencode (reviewsParams limit)) P k) = path := by
      cases k with
      | zero =>
        simpa [urlAt, firstUrl] using
          pathOf_append (urlencode (reviewsParams limit)) hpath
      | succ k0 =>
        exact pathOf_nextUrl hpath ((k0 + 1) * P) (urlencode (reviewsParams limit))
    have hfetch := mockReviewsServer_eval rs P hpa hofs
    rw [reviewsLoop_step hfetch]
    have hpagelen : ((rs.drop (k * P)).take P).length = min P (rs.length - k * P) := by
      simp
    by_cases hin : limit.toNat - k * P ≤ P
    · -- the limit is reached inside this page: the generator returns early
      rw [processItems_hit hlim hk (by
        simp only [List.length_map, List.length_take, List.length_drop]
        omega)]
      rw [if_pos rfl]
      dsimp only
      simp only [Option.some.injEq, LoopResult.mk.injEq, and_true, true_and]
      refine ⟨?_, ?_⟩
      · rw [← List.map_take]
        rw [map_parse_reviewItem (fun r hr => hdev r
          (List.drop_subset _ _ (List.take_subset _ _ (List.take_subset _ _ hr))))]
        rw [take_take_min]
        rw [show min (limit.toNat - k * P) P = limit.toNat - k * P from by omega]
      · rw [ceilDiv_eq_one hP (by omega) hin]
        simp [List.range_succ]
    · -- the page is exhausted first: recurse at offset (k+1)·P
      push_neg at hin
      have hpagepos : 0 < ((rs.drop (k * P)).take P).length := by
        rw [hpagelen]
        omega
      rw [if_pos hpagepos]
      rw [processItems_pass (by
        intro _
        simp only [List.length_map, List.length_take, List.length_drop]
        omega)]
      rw [if_neg (by simp)]
      dsimp only
      rw [if_neg (nextUrlRaw_ne_nil path (k * P + P))]
      have hurl : nextUrlRaw path (k * P + P) ++ '&' :: urlencode (reviewsParams limit)
          = urlAt path (urlencode (reviewsParams limit)) P (k + 1) := by
        simp [urlAt, Nat.succ_mul]
      rw [hurl]
      have hcount : k * P + (((rs.drop (k * P)).take P).map reviewItemOf).length
          = (k + 1) * P := by
        simp only [List.length_map, List.length_take, List.length_drop, Nat.succ_mul]
        omega
      rw [hcount]
      have hk2 : (k + 1) * P < limit.toNat := by
        rw [Nat.succ_mul]
        omega
      have harith : limit.toNat - (k + 1) * P = limit.toNat - k * P - P := by
        rw [Nat.succ_mul]
        omega
      have hfuel2 : ceilDiv (limit.toNat - (k + 1) * P) P ≤ f := by
        have hstep2 : ceilDiv (limit.toNat - k * P) P
            = ceilDiv (limit.toNat - k * P - P) P + 1 :=
          ceilDiv_step hP (by omega)
        rw [harith]
        omega
      rw [ih (k + 1) hk2 hfuel2]
      dsimp only
      simp only [Option.some.injEq, LoopResult.mk.injEq, and_true, true_and]
      have hM : ceilDiv (limit.toNat - k * P) P
          = ceilDiv (limit.toNat - (k + 1) * P) P + 1 := by
        rw [harith]
        exact ceilDiv_step hP (by omega)
      refine ⟨?_, ?_⟩
      · rw [map_parse_reviewItem
          (fun r hr => hdev r (List.drop_subset _ _ (List.take_subset _ _ hr)))]
        have h5 : rs.drop ((k + 1) * P) = (rs.drop (k * P)).drop P := by
          rw [List.drop_drop]
          congr 1
          rw [Nat.succ_mul]
        rw [h5, harith]
        rw [show limit.toNat - k * P = P + (limit.toNat - k * P - P) from by omega]
        rw [take_add_append]
        rw [show P + (limit.toNat - k * P - P) - P = limit.toNat - k * P - P from by omega]
      · rw [hM]
        conv_rhs => rw [List.range_succ_eq_map]
        simp only [List.map_cons, List.map_map]
        congr 1
        apply List.map_congr_left
        intro i _
        simp only [Function.comp_apply]
        rw [show k + Nat.succ i = k + 1 + i from by omega]

/-! ### Claim theorems -/

/-- C4: for every app_id and country whose app-page fetch returns HTTP 404,
constructing `AppStoreEntry(app_id, country)` raises `AppNotFound`, performs
exactly the one page fetch, and issues no API request. -/
theorem c4_app_not_found (web : Str → PageResponse) (app_id country : Str) (n : Int)
    (hp : parseInt app_id = some n)
    (hst : (web (appPageUrl app_id country)).status = 404) :
    AppStoreEntry.init web app_id country =
      { result := .error (.appNotFound app_id country)
        pageCalls := [appPageUrl app_id country]
        apiCalls := [] } := by
  simp [AppStoreEntry.init, hp, hst]

/-- C4 witness. -/
theorem c4_app_not_found_witness :
    AppStoreEntry.init web404 (chars ("7")) (chars ("us")) =
      { result := .error (.appNotFound (chars ("7")) (chars ("us")))
        pageCalls := [appPageUrl (chars ("7")) (chars ("us"))]
        apiCalls := [] } :=
  c4_app_not_found web404 (chars ("7")) (chars ("us")) 7 (by decide) rfl

/-- C5 counterexample: an app page whose decoded config JSON lacks the
`MEDIA_API` key makes construction raise `KeyError`, which is not an
`AppStoreError`, contradicting the claim that such pages raise
`AppStoreError`. -/
theorem c5_counterexample :
    (AppStoreEntry.init webEmptyConfig (chars ("1")) (chars ("de"))).result
        = .error (.keyError (chars ("MEDIA_API"))) ∧
    (ScraperError.keyError (chars ("MEDIA_API"))).isAppStoreError = false ∧
    (AppStoreEntry.init webEmptyConfig (chars ("1")) (chars ("de"))).apiCalls = [] := by
  refine ⟨rfl, rfl, rfl⟩

/-- C5 amended: a page lacking the embedded config tag makes construction raise
`AppStoreError` ("No API token found on app store page") with no API fetch;
a page whose tag is present but whose decoded JSON lacks the `MEDIA_API` (or
`token`) key makes construction raise the corresponding Python `KeyError` -
not an `AppStoreError` - again with no API fetch. -/
theorem c5_missing_token (web : Str → PageResponse) (app_id country : Str) (n : Int)
    (hp : parseInt app_id = some n)
    (hst : (web (appPageUrl app_id country)).status = 200) :
    ((web (appPageUrl app_id country)).body.configTag = none →
      AppStoreEntry.init web app_id country =
        { result := .error (.appStoreError (chars ("No API token found on app store page")))
          pageCalls := [appPageUrl app_id country]
          apiCalls := [] }) ∧
    (∀ cfg key, (web (appPageUrl app_id country)).body.configTag = some cfg →
      _extract_api_access_token (web (appPageUrl app_id country)).body
          = .error (.keyError key) →
      AppStoreEntry.init web app_id country =
        { result := .error (.keyError key)
          pageCalls := [appPageUrl app_id country]
          apiCalls := [] } ∧
      (ScraperError.keyError key).isAppStoreError = false) := by
  constructor
  · intro htag
    have hex : _extract_api_access_token (web (appPageUrl app_id country)).body
        = .error (.appStoreError (chars ("No API token found on app store page"))) := by
      unfold _extract_api_access_token
      rw [htag]
    simp [AppStoreEntry.init, hp, hst, hex]
  · intro cfg key _ hex
    constructor
    · simp [AppStoreEntry.init, hp, hst, hex]
    · rfl

/-- C5 amended witness. -/
theorem c5_missing_token_witness :
    AppStoreEntry.init webNoTag (chars ("1")) (chars ("de")) =
      { result := .error (.appStoreError (chars ("No API token found on app store page")))
        pageCalls := [appPageUrl (chars ("1")) (chars ("de"))]
        apiCalls := [] } :=
  (c5_missing_token webNoTag (chars ("1")) (chars ("de")) 1 (by decide) rfl).1 rfl

/-- C6 counterexample: the default session, once it has made its first request,
sleeps 0.2 s (plus jitter) before the next one, so an explicit application-level
inter-request delay does occur between consecutive requests. -/
theorem c6_counterexample :
    AppStoreSession._apply_delay (AppStoreSession.defaultSession.markRequestMade) 0
        = some (1/5) ∧
    (0 : ℚ) < 1/5 := by
  constructor
  · rw [AppStoreSession._apply_delay]
    rw [if_pos ⟨(show (0 : ℚ) < 1/5 by norm_num), rfl⟩]
    show some ((1 : ℚ)/5 + 0) = some (1/5)
    norm_num
  · norm_num

/-- C6 amended: the session does insert an application-level inter-request
delay: before every request after the first, whenever `delay > 0` (the default
is 0.2 s), `_apply_delay` sleeps `delay + jitter` seconds; only a session
configured with `delay <= 0` never sleeps. -/
theorem c6_inter_request_delay :
    (∀ j : ℚ, AppStoreSession._apply_delay
        (AppStoreSession.defaultSession.markRequestMade) j = some (1/5 + j)) ∧
    (∀ (s : AppStoreSession) (j : ℚ), s.made_first_request = true → 0 < s.delay →
      s._apply_delay j = some (s.delay + j)) ∧
    (∀ (s : AppStoreSession) (j : ℚ), s.delay ≤ 0 → s._apply_delay j = none) := by
  refine ⟨?_, ?_, ?_⟩
  · intro j
    rw [AppStoreSession._apply_delay]
    rw [if_pos ⟨(show (0 : ℚ) < 1/5 by norm_num), rfl⟩]
    rfl
  · intro s j hm hd
    rw [AppStoreSession._apply_delay, if_pos ⟨hd, hm⟩]
  · intro s j hd
    rw [AppStoreSession._apply_delay, if_neg (by
      rintro ⟨h1, _⟩
      exact absurd h1 (by exact not_lt.mpr hd))]

/-- C6 amended witness. -/
theorem c6_inter_request_delay_witness :
    AppStoreSession._apply_delay
        ((AppStoreSession.mkSession 1 0 4 2 0 60).markRequestMade) 0 = some (1 + 0) :=
  c6_inter_request_delay.2.1 (AppStoreSession.mkSession 1 0 4 2 0 60).markRequestMade 0
    rfl (show (0 : ℚ) < 1 by norm_num)

/-- C7 counterexample: the default retry configuration uses a backoff factor of
2 seconds, not 3. -/
theorem c7_counterexample :
    AppStoreSession.defaultSession.retry.backoff_factor = 2 ∧ (2 : ℚ) ≠ 3 := by
  constructor
  · rfl
  · norm_num

/-- C7 amended: a session constructed with no arguments uses 4 retries (up to 5
attempts in total), a backoff factor of 2 seconds, no backoff jitter, a backoff
cap of 60 seconds, and retries only the statuses 429 and 503 (besides
transport-level failures, which `urllib3.Retry` always covers). -/
theorem c7_default_retry :
    AppStoreSession.defaultSession.retry =
      { total := 4, backoff_factor := 2, backoff_jitter := 0, backoff_max := 60
        status_forcelist := [429, 503] } ∧
    AppStoreSession.defaultSession.retry.total + 1 = 5 := by
  exact ⟨rfl, rfl⟩

theorem offsetOf_urlAt {path : Str} (hpath : '?' ∉ path) (limit : Int) (P k : Nat) :
    offsetOf (urlAt path (urlencode (reviewsParams limit)) P k) = some (k * P) := by
  cases k with
  | zero =>
    have h0 := offsetOf_firstUrl hpath limit
    simpa [urlAt] using h0
  | succ k0 =>
    exact offsetOf_nextUrl hpath ((k0 + 1) * P) (urlencode (reviewsParams limit))

theorem pathOf_urlAt {path : Str} (hpath : '?' ∉ path) (limit : Int) (P k : Nat) :
    pathOf (urlAt path (urlencode (reviewsParams limit)) P k) = path := by
  cases k with
  | zero =>
    simpa [urlAt, firstUrl] using pathOf_append (urlencode (reviewsParams limit)) hpath
  | succ k0 =>
    exact pathOf_nextUrl hpath ((k0 + 1) * P) (urlencode (reviewsParams limit))

/-- C1: against the test-suite backend serving the app's N reviews in pages of
size P, `reviews(limit)` with a positive limit yields exactly min(N, limit)
reviews - the first ones, in upstream order - and raises nothing; when
limit ≤ N the generator stops by reaching the limit, after exactly
⌈limit / P⌉ fetches, so no fetch is issued beyond the page containing the
limit-th review. -/
theorem c1_reviews_limit (e : AppStoreEntry) (rs : List AppReview) (P : Nat)
    (limit : Int) (fuel : Nat) (hP : 0 < P) (hcountry : alphaStr e.country)
    (hdev : ∀ r ∈ rs, r.developer_response = none) (hlim : 0 < limit)
    (hfuel : rs.length + 2 ≤ fuel) :
    ∃ res : LoopResult,
      e.reviews (mockReviewsServer rs P e.reviewsPath) limit fuel = some res ∧
      res.yielded = rs.take limit.toNat ∧
      res.yielded.length = min rs.length limit.toNat ∧
      res.raised = none ∧
      (limit.toNat ≤ rs.length →
        res.calls.length = ceilDiv limit.toNat P ∧ res.stoppedByLimit = true) := by
  have hpath := qmark_not_mem_reviewsPath hcountry
  by_cases hLN : limit.toNat ≤ rs.length
  · have hf0 : ceilDiv (limit.toNat - 0 * P) P ≤ fuel := by
      rw [Nat.zero_mul, Nat.sub_zero]
      have h1 := ceilDiv_le limit.toNat hP
      omega
    have h := reviewsLoop_mock_hit rs P e.reviewsPath limit e.api_access_token
      hP hpath hdev hlim hLN fuel 0 (by rw [Nat.zero_mul]; omega) hf0
    simp only [Nat.zero_mul, Nat.sub_zero, List.drop_zero] at h
    refine ⟨_, h, rfl, ?_, rfl, fun _ => ⟨?_, rfl⟩⟩
    · rw [List.length_take, Nat.min_comm]
    · simp
  · push_neg at hLN
    have hcnt : 0 < limit → 0 + (rs.length - 0 * P) < limit.toNat := by
      intro _
      rw [Nat.zero_mul]
      omega
    have hf0 : ceilDiv (rs.length - 0 * P) P + 1 ≤ fuel := by
      rw [Nat.zero_mul, Nat.sub_zero]
      have h1 := ceilDiv_le rs.length hP
      omega
    have h := reviewsLoop_mock_pass rs P e.reviewsPath limit e.api_access_token
      hP hpath hdev fuel 0 0 hcnt hf0
    simp only [Nat.zero_mul, Nat.sub_zero, List.drop_zero] at h
    refine ⟨_, h, ?_, ?_, rfl, fun hc => absurd (lt_of_lt_of_le hLN hc) (lt_irrefl _)⟩
    · show rs = rs.take limit.toNat
      exact (List.take_of_length_le (by omega)).symm
    · show rs.length = min rs.length limit.toNat
      rw [Nat.min_eq_left (by omega)]

/-- C1 witness. -/
theorem c1_reviews_limit_witness :
    ∃ res : LoopResult,
      sampleEntry.reviews
          (mockReviewsServer [sampleReview 1, sampleReview 2, sampleReview 3, sampleReview 4]
            3 sampleEntry.reviewsPath) 2 6 = some res ∧
      res.yielded = [sampleReview 1, sampleReview 2, sampleReview 3, sampleReview 4].take
        ((2 : Int)).toNat ∧
      res.yielded.length = min
        ([sampleReview 1, sampleReview 2, sampleReview 3, sampleReview 4]).length
        ((2 : Int)).toNat ∧
      res.raised = none ∧
      (((2 : Int)).toNat ≤
          ([sampleReview 1, sampleReview 2, sampleReview 3, sampleReview 4]).length →
        res.calls.length = ceilDiv ((2 : Int)).toNat 3 ∧ res.stoppedByLimit = true) :=
  c1_reviews_limit sampleEntry
    [sampleReview 1, sampleReview 2, sampleReview 3, sampleReview 4] 3 2 6
    (by decide) (by decide) (by decide) (by decide) (by decide)

/-- C2 amended: against the test-suite backend, `reviews()` with the default
unbounded limit yields exactly the N reviews in upstream order and performs
⌈N / P⌉ + 1 page fetches: the ⌈N / P⌉ pages carrying data, plus always one
terminating fetch of the empty continuation - under this backend every
non-empty page (full or not) carries a `next` URL, so the extra fetch is not
restricted to the case of a full last page. -/
theorem c2_reviews_pagination (e : AppStoreEntry) (rs : List AppReview) (P : Nat)
    (fuel : Nat) (hP : 0 < P) (hcountry : alphaStr e.country)
    (hdev : ∀ r ∈ rs, r.developer_response = none)
    (hfuel : rs.length + 2 ≤ fuel) :
    ∃ res : LoopResult,
      e.reviews (mockReviewsServer rs P e.reviewsPath) 0 fuel = some res ∧
      res.yielded = rs ∧
      res.raised = none ∧
      res.stoppedByLimit = false ∧
      res.calls.length = ceilDiv rs.length P + 1 := by
  have hpath := qmark_not_mem_reviewsPath hcountry
  have hf0 : ceilDiv (rs.length - 0 * P) P + 1 ≤ fuel := by
    rw [Nat.zero_mul, Nat.sub_zero]
    have h1 := ceilDiv_le rs.length hP
    omega
  have h := reviewsLoop_mock_pass rs P e.reviewsPath 0 e.api_access_token
    hP hpath hdev fuel 0 0 (fun hl => absurd hl (by omega)) hf0
  simp only [Nat.zero_mul, Nat.sub_zero, List.drop_zero] at h
  refine ⟨_, h, rfl, rfl, rfl, ?_⟩
  simp

/-- C2 counterexample: with a single review and page size 3, the run makes 2
fetches; the claim's formula (⌈N/P⌉ fetches, plus one extra only when the last
page is full) predicts ⌈1/3⌉ = 1, since the only page holds 1 < 3 reviews. -/
theorem c2_counterexample :
    ((AppStoreEntry.reviews sampleEntry
        (mockReviewsServer [sampleReview 1] 3 sampleEntry.reviewsPath) 0 6).map
      (fun res => res.calls.length)) = some 2 ∧
    ceilDiv 1 3 = 1 ∧ ¬ (3 ∣ 1) := by
  refine ⟨?_, by decide, by decide⟩
  decide

theorem reviews_def (e : AppStoreEntry) (fetch : Str → Except ScraperError ReviewsResponse)
    (limit : Int) (fuel : Nat) :
    e.reviews fetch limit fuel =
      reviewsLoop fetch e.api_access_token limit (urlencode (reviewsParams limit)) fuel
        (e.reviewsPath ++ '?' :: urlencode (reviewsParams limit)) 0 := rfl

/-- C3: pagination invariant of the `reviews()` loop against the test-suite
backend.  In a complete unbounded run, the k-th request URL is exactly
`urlAt k`: the initial URL for k = 0, and for every later step the upstream
`next` URL (which carries only the new offset) completed by re-appending the
original query string.  Every page before the last carries a `next` URL for
offset (k+1)·P, the re-derived request parses to that offset followed by
exactly the original parameters of the first request, and the final fetch
returns an empty page whose `next` is absent, ending the loop normally. -/
theorem c3_continuation_invariant (e : AppStoreEntry) (rs : List AppReview) (P : Nat)
    (fuel : Nat) (hP : 0 < P) (hcountry : alphaStr e.country)
    (hdev : ∀ r ∈ rs, r.developer_response = none)
    (hfuel : rs.length + 2 ≤ fuel) :
    ∃ res : LoopResult,
      e.reviews (mockReviewsServer rs P e.reviewsPath) 0 fuel = some res ∧
      res.calls = (List.range (ceilDiv rs.length P + 1)).map
        (fun i => ⟨urlAt e.reviewsPath (urlencode (reviewsParams 0)) P i,
                   e.api_access_token⟩) ∧
      (∀ k, k < ceilDiv rs.length P →
        ∃ resp, mockReviewsServer rs P e.reviewsPath
            (urlAt e.reviewsPath (urlencode (reviewsParams 0)) P k) = .ok resp ∧
          resp.next = some (nextUrlRaw e.reviewsPath ((k + 1) * P)) ∧
          urlAt e.reviewsPath (urlencode (reviewsParams 0)) P (k + 1)
            = nextUrlRaw e.reviewsPath ((k + 1) * P) ++ '&' :: urlencode (reviewsParams 0) ∧
          queryParams (urlAt e.reviewsPath (urlencode (reviewsParams 0)) P (k + 1))
            = (chars ("offset"), natStr ((k + 1) * P))
                :: queryParams (urlAt e.reviewsPath (urlencode (reviewsParams 0)) P 0)) ∧
      (∃ resp, mockReviewsServer rs P e.reviewsPath
          (urlAt e.reviewsPath (urlencode (reviewsParams 0)) P (ceilDiv rs.length P))
            = .ok resp ∧ resp.next = none ∧ resp.data = []) := by
  have hpath := qmark_not_mem_reviewsPath hcountry
  have hf0 : ceilDiv (rs.length - 0 * P) P + 1 ≤ fuel := by
    rw [Nat.zero_mul, Nat.sub_zero]
    have h1 := ceilDiv_le rs.length hP
    omega
  have h := reviewsLoop_mock_pass rs P e.reviewsPath 0 e.api_access_token
    hP hpath hdev fuel 0 0 (fun hl => absurd hl (by omega)) hf0
  simp only [Nat.zero_mul, Nat.sub_zero, List.drop_zero] at h
  refine ⟨_, h, ?_, ?_, ?_⟩
  · show (List.range (ceilDiv rs.length P + 1)).map _ = _
    apply List.map_congr_left
    intro i _
    simp
  · intro k hk
    have hkP : k * P < rs.length := mul_lt_of_lt_ceilDiv hP hk
    have hresp := mockReviewsServer_eval rs P
      (pathOf_urlAt hpath 0 P k) (offsetOf_urlAt hpath 0 P k)
    refine ⟨_, hresp, ?_, ?_, ?_⟩
    · show (if 0 < ((rs.drop (k * P)).take P).length
          then some (nextUrlRaw e.reviewsPath (k * P + P)) else none) = _
      rw [if_pos (by
        simp only [List.length_take, List.length_drop]
        omega)]
      rw [show k * P + P = (k + 1) * P from (Nat.succ_mul k P).symm]
    · simp [urlAt, Nat.succ_mul]
    · show queryParams (nextUrlRaw e.reviewsPath ((k + 1) * P)
          ++ '&' :: urlencode (reviewsParams 0)) = _
      rw [queryParams_nextUrl hpath]
      rfl
  · have hbig : rs.length ≤ ceilDiv rs.length P * P := le_ceilDiv_mul hP
    have hresp := mockReviewsServer_eval rs P
      (pathOf_urlAt hpath 0 P (ceilDiv rs.length P))
      (offsetOf_urlAt hpath 0 P (ceilDiv rs.length P))
    have hdropnil : rs.drop (ceilDiv rs.length P * P) = [] := by
      apply List.length_eq_zero.mp
      simp only [List.length_drop]
      omega
    refine ⟨_, hresp, ?_, ?_⟩
    · show (if 0 < ((rs.drop (ceilDiv rs.length P * P)).take P).length
          then some (nextUrlRaw e.reviewsPath (ceilDiv rs.length P * P + P)) else none)
        = none
      rw [hdropnil]
      simp
    · show ((rs.drop (ceilDiv rs.length P * P)).take P).map reviewItemOf = []
      rw [hdropnil]
      simp

/-- C3 witness. -/
theorem c3_continuation_invariant_witness :
    ∃ res : LoopResult,
      sampleEntry.reviews
          (mockReviewsServer [sampleReview 1, sampleReview 2] 1 sampleEntry.reviewsPath)
          0 6 = some res ∧
      res.calls = (List.range (ceilDiv ([sampleReview 1, sampleReview 2]).length 1 + 1)).map
        (fun i => ⟨urlAt sampleEntry.reviewsPath (urlencode (reviewsParams 0)) 1 i,
                   sampleEntry.api_access_token⟩) ∧
      (∀ k, k < ceilDiv ([sampleReview 1, sampleReview 2]).length 1 →
        ∃ resp, mockReviewsServer [sampleReview 1, sampleReview 2] 1 sampleEntry.reviewsPath
            (urlAt sampleEntry.reviewsPath (urlencode (reviewsParams 0)) 1 k) = .ok resp ∧
          resp.next = some (nextUrlRaw sampleEntry.reviewsPath ((k + 1) * 1)) ∧
          urlAt sampleEntry.reviewsPath (urlencode (reviewsParams 0)) 1 (k + 1)
            = nextUrlRaw sampleEntry.reviewsPath ((k + 1) * 1)
                ++ '&' :: urlencode (reviewsParams 0) ∧
          queryParams (urlAt sampleEntry.reviewsPath (urlencode (reviewsParams 0)) 1 (k + 1))
            = (chars ("offset"), natStr ((k + 1) * 1))
                :: queryParams (urlAt sampleEntry.reviewsPath
                    (urlencode (reviewsParams 0)) 1 0)) ∧
      (∃ resp, mockReviewsServer [sampleReview 1, sampleReview 2] 1 sampleEntry.reviewsPath
          (urlAt sampleEntry.reviewsPath (urlencode (reviewsParams 0)) 1
            (ceilDiv ([sampleReview 1, sampleReview 2]).length 1)) = .ok resp ∧
        resp.next = none ∧ resp.data = []) :=
  c3_continuation_invariant sampleEntry [sampleReview 1, sampleReview 2] 1 6
    (by decide) (by decide) (by decide) (by decide)

/-- C8: the API access token is obtained exactly once, at construction: a
successful `AppStoreEntry.__init__` performs exactly one page fetch, issues no
API request, and caches the token extracted from that single page; afterwards
every request of every `reviews()` iteration of that entry carries that same
cached token as its bearer token, whatever the backend, limit and length of the
run - the loop never re-fetches or refreshes it. -/
theorem c8_token_fetched_once (web : Str → PageResponse) (app_id country : Str)
    (e : AppStoreEntry)
    (hinit : (AppStoreEntry.init web app_id country).result = .ok e) :
    (AppStoreEntry.init web app_id country).pageCalls.length = 1 ∧
    (AppStoreEntry.init web app_id country).apiCalls = [] ∧
    _extract_api_access_token (web (appPageUrl app_id country)).body
      = .ok e.api_access_token ∧
    (∀ (fetch : Str → Except ScraperError ReviewsResponse) (limit : Int) (fuel : Nat)
        (res : LoopResult),
      e.reviews fetch limit fuel = some res →
      ∀ call ∈ res.calls, call.access_token = e.api_access_token) := by
  cases hp : parseInt app_id with
  | none => simp [AppStoreEntry.init, hp] at hinit
  | some n =>
    by_cases h404 : (web (appPageUrl app_id country)).status = 404
    · simp [AppStoreEntry.init, hp, h404] at hinit
    · by_cases h400 : 400 ≤ (web (appPageUrl app_id country)).status
      · simp [AppStoreEntry.init, hp, h404, h400] at hinit
      · cases hex : _extract_api_access_token (web (appPageUrl app_id country)).body with
        | error err => simp [AppStoreEntry.init, hp, h404, h400, hex] at hinit
        | ok tok =>
          simp only [AppStoreEntry.init, hp, h404, h400, hex, if_false, if_neg,
            Except.ok.injEq] at hinit
          subst hinit
          refine ⟨?_, ?_, ?_, ?_⟩
          · simp [AppStoreEntry.init, hp, h404, h400, hex]
          · simp [AppStoreEntry.init, hp, h404, h400, hex]
          · rfl
          · intro fetch limit fuel res hrun call hc
            rw [reviews_def] at hrun
            exact reviewsLoop_token fuel _ 0 res hrun call hc

/-- C8 witness entry. -/
def c8Entry : AppStoreEntry :=
  { app_id := 42, country := chars ("de"), api_access_token := Json.str (chars ("T")) }

/-- C8 witness. -/
theorem c8_token_fetched_once_witness :
    (AppStoreEntry.init webGood (chars ("42")) (chars ("de"))).pageCalls.length = 1 ∧
    (AppStoreEntry.init webGood (chars ("42")) (chars ("de"))).apiCalls = [] ∧
    _extract_api_access_token (webGood (appPageUrl (chars ("42")) (chars ("de")))).body
      = .ok c8Entry.api_access_token ∧
    (∀ (fetch : Str → Except ScraperError ReviewsResponse) (limit : Int) (fuel : Nat)
        (res : LoopResult),
      c8Entry.reviews fetch limit fuel = some res →
      ∀ call ∈ res.calls, call.access_token = c8Entry.api_access_token) :=
  c8_token_fetched_once webGood (chars ("42")) (chars ("de")) c8Entry rfl

/-- C9: a negative `limit` raises nothing and behaves exactly as the unbounded
default: the run is literally the run with `limit = 0`, the query parameters
(including the requested page-size parameter, which stays the fixed page size
20) are those of the unbounded call, and against the test-suite backend all N
available reviews are yielded without an early stop. -/
theorem c9_negative_limit (e : AppStoreEntry)
    (fetch : Str → Except ScraperError ReviewsResponse) (limit : Int) (fuel : Nat)
    (hneg : limit < 0) :
    e.reviews fetch limit fuel = e.reviews fetch 0 fuel ∧
    reviewsParams limit = reviewsParams 0 ∧
    (reviewsParams limit).lookup (chars ("limit"))
      = some (intStr (_REVIEWS_PAGE_SIZE : Int)) ∧
    (∀ (rs : List AppReview) (P : Nat), 0 < P → alphaStr e.country →
      (∀ r ∈ rs, r.developer_response = none) →
      rs.length + 2 ≤ fuel →
      ∃ res : LoopResult,
        e.reviews (mockReviewsServer rs P e.reviewsPath) limit fuel = some res ∧
        res.yielded = rs ∧ res.raised = none ∧ res.stoppedByLimit = false) := by
  have hparams : reviewsParams limit = reviewsParams 0 := by
    unfold reviewsParams
    rw [if_neg (by omega), if_neg (by omega)]
  have hrun : ∀ (f2 : Str → Except ScraperError ReviewsResponse),
      e.reviews f2 limit fuel = e.reviews f2 0 fuel := by
    intro f2
    rw [reviews_def, reviews_def, hparams]
    exact reviewsLoop_nonpos_eq (by omega) fuel _ 0
  refine ⟨hrun fetch, hparams, ?_, ?_⟩
  · rw [hparams]
    rfl
  · intro rs P hP hcountry hdev hfuel
    have hpath := qmark_not_mem_reviewsPath hcountry
    have hf0 : ceilDiv (rs.length - 0 * P) P + 1 ≤ fuel := by
      rw [Nat.zero_mul, Nat.sub_zero]
      have h1 := ceilDiv_le rs.length hP
      omega
    have h := reviewsLoop_mock_pass rs P e.reviewsPath 0 e.api_access_token
      hP hpath hdev fuel 0 0 (fun hl => absurd hl (by omega)) hf0
    simp only [Nat.zero_mul, Nat.sub_zero, List.drop_zero] at h
    exact ⟨_, ((hrun (mockReviewsServer rs P e.reviewsPath)).trans
      (reviews_def e (mockReviewsServer rs P e.reviewsPath) 0 fuel)).trans h,
      rfl, rfl, rfl⟩

/-- C9 witness. -/
theorem c9_negative_limit_witness :
    sampleEntry.reviews (mockReviewsServer [] 1 sampleEntry.reviewsPath) (-1) 3
        = sampleEntry.reviews (mockReviewsServer [] 1 sampleEntry.reviewsPath) 0 3 ∧
    reviewsParams (-1) = reviewsParams 0 ∧
    (reviewsParams (-1)).lookup (chars ("limit"))
      = some (intStr (_REVIEWS_PAGE_SIZE : Int)) ∧
    (∀ (rs : List AppReview) (P : Nat), 0 < P → alphaStr sampleEntry.country →
      (∀ r ∈ rs, r.developer_response = none) →
      rs.length + 2 ≤ 3 →
      ∃ res : LoopResult,
        sampleEntry.reviews (mockReviewsServer rs P sampleEntry.reviewsPath) (-1) 3
            = some res ∧
        res.yielded = rs ∧ res.raised = none ∧ res.stoppedByLimit = false) :=
  c9_negative_limit sampleEntry (mockReviewsServer [] 1 sampleEntry.reviewsPath) (-1) 3
    (by decide)

/-- C10: the construction-time page fetch uses the raw constructor arguments
(the original `app_id` text and the country in its given case), while the
stored fields, and hence the reviews endpoint path, use the normalized values
(`int(app_id)` and the lowercased country); so for a country argument that is
not already lowercase, the page URL differs from the URL the normalized country
would give, and its country segment differs in case from the reviews path's. -/
theorem c10_raw_fetch_normalized_storage (web : Str → PageResponse)
    (app_id country : Str) (n : Int) (hp : parseInt app_id = some n) :
    (AppStoreEntry.init web app_id country).pageCalls = [appPageUrl app_id country] ∧
    appPageUrl app_id country
      = webBaseUrl ++ '/' :: country ++ chars ("/app/_/id") ++ app_id ∧
    (∀ e, (AppStoreEntry.init web app_id country).result = .ok e →
      e.app_id = n ∧ e.country = country.map Char.toLower ∧
      e.reviewsPath = chars ("/v1/catalog/") ++ country.map Char.toLower
        ++ chars ("/apps/") ++ intStr n ++ chars ("/reviews")) ∧
    (country.map Char.toLower ≠ country →
      appPageUrl app_id country ≠ appPageUrl app_id (country.map Char.toLower)) := by
  refine ⟨?_, rfl, ?_, ?_⟩
  · by_cases h404 : (web (appPageUrl app_id country)).status = 404
    · simp [AppStoreEntry.init, hp, h404]
    · by_cases h400 : 400 ≤ (web (appPageUrl app_id country)).status
      · simp [AppStoreEntry.init, hp, h404, h400]
      · cases hex : _extract_api_access_token (web (appPageUrl app_id country)).body with
        | error err => simp [AppStoreEntry.init, hp, h404, h400, hex]
        | ok tok => simp [AppStoreEntry.init, hp, h404, h400, hex]
  · intro e he
    by_cases h404 : (web (appPageUrl app_id country)).status = 404
    · simp [AppStoreEntry.init, hp, h404] at he
    · by_cases h400 : 400 ≤ (web (appPageUrl app_id country)).status
      · simp [AppStoreEntry.init, hp, h404, h400] at he
      · cases hex : _extract_api_access_token (web (appPageUrl app_id country)).body with
        | error err => simp [AppStoreEntry.init, hp, h404, h400, hex] at he
        | ok tok =>
          simp only [AppStoreEntry.init, hp, h404, h400, hex, if_false, if_neg,
            Except.ok.injEq] at he
          rw [← he]
          exact ⟨rfl, rfl, rfl⟩
  · intro hne hcontra
    have h2 := List.append_cancel_right hcontra
    have h3 := List.append_cancel_right h2
    have h4 := List.append_cancel_left h3
    have h5 : country = country.map Char.toLower := by
      injection h4
    exact hne h5.symm

/-- C10 witness. -/
theorem c10_raw_fetch_normalized_storage_witness :
    (AppStoreEntry.init webGood (chars ("42")) (chars ("GB"))).pageCalls
        = [appPageUrl (chars ("42")) (chars ("GB"))] ∧
    appPageUrl (chars ("42")) (chars ("GB"))
      = webBaseUrl ++ '/' :: chars ("GB") ++ chars ("/app/_/id") ++ chars ("42") ∧
    (∀ e, (AppStoreEntry.init webGood (chars ("42")) (chars ("GB"))).result = .ok e →
      e.app_id = 42 ∧ e.country = (chars ("GB")).map Char.toLower ∧
      e.reviewsPath = chars ("/v1/catalog/") ++ (chars ("GB")).map Char.toLower
        ++ chars ("/apps/") ++ intStr 42 ++ chars ("/reviews")) ∧
    ((chars ("GB")).map Char.toLower ≠ chars ("GB") →
      appPageUrl (chars ("42")) (chars ("GB"))
        ≠ appPageUrl (chars ("42")) ((chars ("GB")).map Char.toLower)) :=
  c10_raw_fetch_normalized_storage webGood (chars ("42")) (chars ("GB")) 42 (by decide)

/-- C2 amended witness. -/
theorem c2_reviews_pagination_witness :
    ∃ res : LoopResult,
      sampleEntry.reviews
          (mockReviewsServer [sampleReview 1, sampleReview 2] 3 sampleEntry.reviewsPath)
          0 6 = some res ∧
      res.yielded = [sampleReview 1, sampleReview 2] ∧
      res.raised = none ∧
      res.stoppedByLimit = false ∧
      res.calls.length = ceilDiv ([sampleReview 1, sampleReview 2]).length 3 + 1 :=
  c2_reviews_pagination sampleEntry [sampleReview 1, sampleReview 2] 3 6
    (by decide) (by decide) (by decide) (by decide)
